import Mathlib

/-!
# Verification of the log-processor pipeline

A shallow embedding of the Go log-processor (`processor.go`, `main.go`) and
proofs about it.  Channel-carried sequences are modelled as finite `List`s,
the Go `map[string]int` as an association list with unique keys, and Go
`int` arithmetic over `Int` with the 64-bit behavior made explicit where
it matters: the range check of `strconv.Atoi` and the wrap-around of the
response-time accumulator (`wrap64`).  The `float64` division that derives
the average is idealized as exact division in `ℚ`.  The
concurrent worker pool (`processLogs`) is modelled as a nondeterministic
step relation on scheduler configurations.  The file system is modelled by
the outcome of `os.Open` and `File.Stat` plus the list of lines the scanner
yields.
-/

namespace LogProcessor

/-- One parsed log record (Go struct `LogEntry`). -/
structure LogEntry where
  Timestamp    : String
  IP           : String
  Method       : String
  URL          : String
  StatusCode   : Int
  ResponseTime : Int
  deriving DecidableEq, Repr

/-- Aggregated statistics (Go struct `Statistics`).  The Go
`map[string]int` is modelled as an association list with unique keys and
`float64` by `ℚ`. -/
structure Statistics where
  TotalRequests   : Nat
  ErrorCount      : Nat
  RequestsByIP    : List (String × Nat)
  AverageRespTime : ℚ
  deriving DecidableEq, Repr

/-! ## Model of Go `strings.Split` with a one-character separator

`strings.Split(line, ",")`: the fields are the verbatim runs of characters
between consecutive separators; `Split("", sep) = [""]`, and adjacent
separators yield empty fields. -/

/-- Model of `strings.Split` restricted to a single-character separator. -/
def splitFields (sep : Char) : List Char → List (List Char)
  | [] => [[]]
  | c :: rest =>
    if c = sep then [] :: splitFields sep rest
    else
      match splitFields sep rest with
      | [] => [[c]]
      | f :: fs => (c :: f) :: fs

/-! ## Model of Go `strconv.Atoi`

`strconv.Atoi(s)` = `ParseInt(s, 10, 0)`: an optional leading `+` or `-`,
then one or more ASCII digits `0`-`9` and nothing else; values outside the
64-bit `int` range are an error (`ErrRange`).  No whitespace, no
underscores (those need base 0), no other characters. -/

/-- Numeric value of a list of decimal digit characters. -/
def digitsVal (ds : List Char) : Nat :=
  ds.foldl (fun acc d => 10 * acc + (d.toNat - '0'.toNat)) 0

/-- Model of Go `strconv.Atoi` on the characters of the argument:
`some v` exactly when Go returns `(v, nil)`. -/
def goAtoi (s : List Char) : Option Int :=
  match s with
  | [] => none
  | c :: rest =>
    let neg : Bool := c = '-'
    let digits : List Char := if c = '+' ∨ c = '-' then rest else c :: rest
    if digits.isEmpty then none
    else if digits.all Char.isDigit then
      let v : Int := if neg then -(digitsVal digits : Int) else (digitsVal digits : Int)
      if v < -(2 ^ 63) ∨ 2 ^ 63 - 1 < v then none else some v
    else none

/-! ## Parser (`parseLogLine`) -/

/-- Model of `parseLogLine`: split the line on the comma; a field count
other than 6, or a fifth/sixth field rejected by `Atoi`, is an error;
otherwise build the `LogEntry` from the six verbatim fields. -/
def parseLogLine (line : String) (lineNumber : Nat) : Except String LogEntry :=
  let fields := splitFields ',' line.data
  if fields.length ≠ 6 then
    .error ("неверный формат логов в строке " ++ toString (lineNumber + 1))
  else
    match goAtoi (fields.getD 4 []) with
    | none => .error ("неверный код ответа в строке " ++ toString (lineNumber + 1))
    | some statusCode =>
      match goAtoi (fields.getD 5 []) with
      | none => .error ("неверное время ответа в строке " ++ toString (lineNumber + 1))
      | some responseTime =>
        .ok { Timestamp := String.mk (fields.getD 0 [])
              IP := String.mk (fields.getD 1 [])
              Method := String.mk (fields.getD 2 [])
              URL := String.mk (fields.getD 3 [])
              StatusCode := statusCode
              ResponseTime := responseTime }

instance : DecidableEq (Except String LogEntry)
  | .ok a, .ok b =>
      if h : a = b then .isTrue (by rw [h]) else .isFalse (by simp [h])
  | .error a, .error b =>
      if h : a = b then .isTrue (by rw [h]) else .isFalse (by simp [h])
  | .ok _, .error _ => .isFalse (by simp)
  | .error _, .ok _ => .isFalse (by simp)

/-! ## Source reader (`readLogs`)

The read loop of `readLogs`, after the header has been consumed: Go
increments `lineNumber` before parsing, so the first data line is parsed
with `lineNumber = 1`.  A parse failure logs one diagnostic and skips the
line (`continue`); a success sends the entry on the output channel.  The
cancellation branch of the loop (`ctx.Done()`) is not exercised by the
claims below, which are about uncancelled runs of the reader. -/

/-- The post-header scan loop: returns the emitted records in order and
the number of malformed-line diagnostics. -/
def scanLines : List String → Nat → List LogEntry × Nat
  | [], _ => ([], 0)
  | line :: rest, n =>
    match parseLogLine line n with
    | .error _ => ((scanLines rest (n + 1)).1, (scanLines rest (n + 1)).2 + 1)
    | .ok e => (e :: (scanLines rest (n + 1)).1, (scanLines rest (n + 1)).2)

/-- Outcome of `readLogs`.  `openError` models `os.Open` failing, in which
case `readLogs` returns `(nil, err)` to its caller.  `statPanic` models
`file.Stat()` failing: the code prints the error but does not return, and
the subsequent `info.Name()` dereferences a nil `FileInfo`, so the run
aborts by panic inside `readLogs` before the reading goroutine starts. -/
inductive ReadResult where
  | openError
  | statPanic
  | ok (records : List LogEntry) (malformed : Nat)
  deriving DecidableEq, Repr

/-- Model of `readLogs`: the file system is abstracted by whether `Open`
succeeds, whether `Stat` succeeds, and the list of lines the scanner
yields.  An empty file means the header scan fails: the goroutine logs and
closes the channel with no records. -/
def readLogs (canOpen canStat : Bool) (lines : List String) : ReadResult :=
  if !canOpen then .openError
  else if !canStat then .statPanic
  else
    match lines with
    | [] => .ok [] 0
    | _header :: rest => .ok (scanLines rest 1).1 (scanLines rest 1).2

/-! ## Entry point (`main`) -/

/-- Abstract outcome of `main`.  `usage` is the successful early exit on a
missing argument; `fatalOpen` is `log.Fatalf` after `readLogs` returns an
error; `panicked` is an abnormal termination by panic; `completed` carries
the records that entered the pipeline and the diagnostic count. -/
inductive MainOutcome where
  | usage
  | fatalOpen
  | panicked
  | completed (records : List LogEntry) (malformed : Nat)
  deriving DecidableEq, Repr

/-- Model of `main` up to the point where the pipeline is fed: `args` are
the command-line arguments after the program name. -/
def mainModel (args : List String) (canOpen canStat : Bool)
    (lines : List String) : MainOutcome :=
  match args with
  | [] => .usage
  | _ :: _ =>
    match readLogs canOpen canStat lines with
    | .openError => .fatalOpen
    | .statPanic => .panicked
    | .ok recs d => .completed recs d

/-! ## Splitter (`tee`) -/

/-- Model of the forwarding loop of `tee`: each value read from the input
is sent to both outputs, first `out1`, then `out2`; both channels are
closed when the input closes.  `bufferSize` is the capacity of the two
buffered channels; buffering affects scheduling only, not the delivered
sequences. -/
def tee (input : List LogEntry) (bufferSize : Nat) :
    List LogEntry × List LogEntry :=
  match input with
  | [] => ([], [])
  | v :: rest => (v :: (tee rest bufferSize).1, v :: (tee rest bufferSize).2)

/-! ## Filter (`filterLogs`) -/

/-- Model of the loop of `filterLogs`: forward exactly the entries with
`StatusCode >= minStatus`, in input order. -/
def filterLogs (input : List LogEntry) (minStatus : Int) : List LogEntry :=
  match input with
  | [] => []
  | e :: rest =>
    if minStatus ≤ e.StatusCode then e :: filterLogs rest minStatus
    else filterLogs rest minStatus

/-! ## Aggregator (`calculateStats`)

The Go `map[string]int` with `m[k]++` (missing key reads as 0) is modelled
by an association list with unique keys. -/

/-- Read a key from the modelled map; a missing key yields 0, as a Go map
read does. -/
def mapGet : List (String × Nat) → String → Nat
  | [], _ => 0
  | (k₀, v) :: rest, k => if k₀ = k then v else mapGet rest k

/-- `m[k]++` on the modelled map. -/
def mapIncr : List (String × Nat) → String → List (String × Nat)
  | [], k => [(k, 1)]
  | (k₀, v) :: rest, k =>
    if k₀ = k then (k₀, v + 1) :: rest else (k₀, v) :: mapIncr rest k

/-- The values of the modelled map, for summing. -/
def mapValues (m : List (String × Nat)) : List Nat :=
  m.map Prod.snd

/-- Two's-complement wrap-around of 64-bit signed `int` arithmetic: the
value of `x` reduced into `[-2^63, 2^63)`. -/
def wrap64 (x : Int) : Int :=
  (x + 2 ^ 63) % 2 ^ 64 - 2 ^ 63

/-- The running value of the Go `int` accumulator `totalRespTime` over a
list of response times: each addition wraps at 64 bits. -/
def wrapSum (rs : List Int) : Int :=
  rs.foldl (fun acc r => wrap64 (acc + r)) 0

/-- The loop state of `calculateStats`: the three counters of `stats`
together with the local accumulator `totalRespTime`. -/
structure StatsAcc where
  totalRequests : Nat
  errorCount    : Nat
  requestsByIP  : List (String × Nat)
  totalRespTime : Int
  deriving Repr

/-- One iteration of the loop body of `calculateStats`.  The Go local
`totalRespTime` is an `int`, so `totalRespTime += logEntry.ResponseTime`
wraps at 64 bits (`wrap64`). -/
def statsStep (acc : StatsAcc) (e : LogEntry) : StatsAcc :=
  { totalRequests := acc.totalRequests + 1
    errorCount := if 400 ≤ e.StatusCode then acc.errorCount + 1 else acc.errorCount
    requestsByIP := mapIncr acc.requestsByIP e.IP
    totalRespTime := wrap64 (acc.totalRespTime + e.ResponseTime) }

/-- Model of `calculateStats`: fold the loop body over the input, then
derive the average; it stays 0 when no request was counted.  The one
idealization left in this model: the `float64` division
`float64(totalRespTime) / float64(totalRequests)` is modelled by exact
division in `ℚ`, so the model carries the true quotient where the code
stores its nearest `float64` (the quotient itself is computed from the
already-wrapped 64-bit accumulator, as in the code). -/
def calculateStats (input : List LogEntry) : Statistics :=
  let acc := input.foldl statsStep ⟨0, 0, [], 0⟩
  { TotalRequests := acc.totalRequests
    ErrorCount := acc.errorCount
    RequestsByIP := acc.requestsByIP
    AverageRespTime :=
      if 0 < acc.totalRequests then
        (acc.totalRespTime : ℚ) / (acc.totalRequests : ℚ)
      else 0 }

/-- A record whose response time is the largest value `Atoi` accepts
(`2^63 - 1`); two of them overflow the Go `int` accumulator of
`calculateStats`. -/
def maxRespEntry : LogEntry :=
  { Timestamp := "t", IP := "i", Method := "GET", URL := "/",
    StatusCode := 200, ResponseTime := 9223372036854775807 }

/-! ## Worker pool (`processLogs`)

`processLogs` starts `numWorkers` goroutines over one shared input channel
and one shared output channel, and closes the output after `wg.Wait()`,
i.e. once every worker has returned.  Each worker loops: it receives an
entry from the input (`for logEntry := range input`; the loop ends when
the channel is closed and drained), then runs a `select`: if the context
is cancelled it returns, dropping the entry it just received; otherwise it
sends the entry on the output.  This is modelled as a nondeterministic
step relation on configurations: `pending` is the part of the finite input
not yet received, `running` counts workers at the top of their loop,
`holding` is the multiset of entries received but not yet sent (one per
worker between its receive and its send), `finished` counts workers that
have returned, `cancelled` is the context flag, and `out` is the sequence
sent on the output channel so far. -/

/-- A scheduler configuration of the `processLogs` worker pool. -/
structure PoolConfig where
  pending   : List LogEntry
  running   : Nat
  holding   : Multiset LogEntry
  finished  : Nat
  cancelled : Bool
  out       : List LogEntry

/-- One scheduler step of the worker pool.  `cancel` fires the context;
`receive` is a worker taking the next entry off the input channel;
`send` is the `default` branch of the worker's `select`, enabled only
while the context is not cancelled; `dropOnCancel` is the `ctx.Done()`
branch, taken (dropping the held entry) exactly when the context is
cancelled; `finishEmpty` is a worker leaving its `range` loop because the
input channel is closed and drained. -/
inductive PoolStep : PoolConfig → PoolConfig → Prop where
  | cancel (c : PoolConfig) :
      PoolStep c { c with cancelled := true }
  | receive (c : PoolConfig) (e : LogEntry) (rest : List LogEntry) :
      c.pending = e :: rest → 0 < c.running →
      PoolStep c { c with pending := rest, running := c.running - 1,
                          holding := e ::ₘ c.holding }
  | send (c : PoolConfig) (e : LogEntry) :
      e ∈ c.holding → c.cancelled = false →
      PoolStep c { c with holding := c.holding.erase e,
                          running := c.running + 1, out := c.out ++ [e] }
  | dropOnCancel (c : PoolConfig) (e : LogEntry) :
      e ∈ c.holding → c.cancelled = true →
      PoolStep c { c with holding := c.holding.erase e,
                          finished := c.finished + 1 }
  | finishEmpty (c : PoolConfig) :
      c.pending = [] → 0 < c.running →
      PoolStep c { c with running := c.running - 1, finished := c.finished + 1 }

/-- The initial configuration of `processLogs` over a finite input. -/
def initPool (input : List LogEntry) (numWorkers : Nat) : PoolConfig :=
  { pending := input, running := numWorkers, holding := 0, finished := 0,
    cancelled := false, out := [] }

/-- Reachability of one pool configuration from another by scheduler
steps. -/
def PoolReaches : PoolConfig → PoolConfig → Prop :=
  Relation.ReflTransGen PoolStep

/-- The output channel of `processLogs` is closed exactly when every
worker has returned (`wg.Wait()` has passed): no worker is at its loop top
and none holds an in-flight entry. -/
def PoolConfig.closed (c : PoolConfig) : Prop :=
  c.running = 0 ∧ c.holding = 0

/-! ## Sample records used in concrete witnesses -/

/-- A sample successful record. -/
def sampleA : LogEntry :=
  { Timestamp := "t1", IP := "10.0.0.1", Method := "GET", URL := "/a",
    StatusCode := 200, ResponseTime := 120 }

/-- A sample error record (status 503). -/
def sampleB : LogEntry :=
  { Timestamp := "t2", IP := "10.0.0.2", Method := "POST", URL := "/b",
    StatusCode := 503, ResponseTime := 40 }

/-- Rebuild a line from its fields by putting the separator back between
consecutive fields (the inverse reading of `splitFields`). -/
def joinFields (sep : Char) : List (List Char) → List Char
  | [] => []
  | [f] => f
  | f :: fs => f ++ sep :: joinFields sep fs

/-- A test file with a valid header, one well-formed row and one 4-field
row. -/
def c5File : List String :=
  ["timestamp,ip,method,url,status_code,response_time_ms",
   "2024-01-15 10:30:00,10.0.0.1,GET,/index.html,200,120",
   "2024-01-15 10:31:00,10.0.0.2,POST,/login"]

/-- The record parsed from the well-formed row of `c5File`. -/
def c5Entry : LogEntry :=
  { Timestamp := "2024-01-15 10:30:00", IP := "10.0.0.1", Method := "GET",
    URL := "/index.html", StatusCode := 200, ResponseTime := 120 }

/-- A line whose sixth field is a negative integer. -/
def c8Line : String := "2024-01-15 10:30:00,10.0.0.1,GET,/index.html,200,-5"

/-- A line with a CSV-quoted field containing a comma: the split yields 7
fields, so the line is malformed for this parser. -/
def c10Line : String := "2024-01-15 10:30:00,\"10.0.0.1,00\",GET,/index.html,200,50"

/-! ## Helper lemmas: filter and tee -/

theorem filterLogs_eq_filter (l : List LogEntry) (t : Int) :
    filterLogs l t = l.filter (fun e => t ≤ e.StatusCode) := by
  induction l with
  | nil => rfl
  | cons e rest ih =>
    by_cases h : t ≤ e.StatusCode <;> simp [filterLogs, h, ih]

theorem tee_eq (input : List LogEntry) (bufferSize : Nat) :
    tee input bufferSize = (input, input) := by
  induction input with
  | nil => rfl
  | cons v rest ih => simp [tee, ih]

/-! ## Helper lemmas: the aggregation fold -/

theorem foldl_statsStep_totalRequests (l : List LogEntry) (a : StatsAcc) :
    (l.foldl statsStep a).totalRequests = a.totalRequests + l.length := by
  induction l generalizing a with
  | nil => simp
  | cons e rest ih => simp [ih, statsStep]; omega

theorem foldl_statsStep_errorCount (l : List LogEntry) (a : StatsAcc) :
    (l.foldl statsStep a).errorCount
      = a.errorCount + (l.filter (fun e => (400 : Int) ≤ e.StatusCode)).length := by
  induction l generalizing a with
  | nil => simp
  | cons e rest ih =>
    by_cases h : (400 : Int) ≤ e.StatusCode <;> simp [ih, statsStep, h] <;> omega

theorem foldl_statsStep_totalRespTime (l : List LogEntry) (a : StatsAcc) :
    (l.foldl statsStep a).totalRespTime
      = (l.map LogEntry.ResponseTime).foldl (fun acc r => wrap64 (acc + r))
          a.totalRespTime := by
  induction l generalizing a with
  | nil => simp
  | cons e rest ih => simp [ih, statsStep]

theorem wrap64_eq_self (x : Int) (h1 : -(2 ^ 63) ≤ x) (h2 : x < 2 ^ 63) :
    wrap64 x = x := by
  unfold wrap64
  have hm : (x + 2 ^ 63) % 2 ^ 64 = x + 2 ^ 63 :=
    Int.emod_eq_of_lt (by omega) (by omega)
  omega

theorem wrapFold_eq_sum (rs : List Int) (acc : Int)
    (h : ∀ k, k ≤ rs.length →
      -(2 ^ 63) ≤ acc + (rs.take k).sum ∧ acc + (rs.take k).sum < 2 ^ 63) :
    rs.foldl (fun a r => wrap64 (a + r)) acc = acc + rs.sum := by
  induction rs generalizing acc with
  | nil => simp
  | cons r rest ih =>
    have h1 := h 1 (by simp)
    simp only [List.take_succ_cons, List.take_zero, List.sum_cons,
      List.sum_nil] at h1
    have hw : wrap64 (acc + r) = acc + r :=
      wrap64_eq_self _ (by omega) (by omega)
    simp only [List.foldl_cons, hw]
    rw [ih (acc + r) ?_]
    · rw [List.sum_cons]
      ring
    · intro k hk
      have hk1 := h (k + 1) (by simpa using Nat.succ_le_succ hk)
      simp only [List.take_succ_cons, List.sum_cons] at hk1
      constructor <;> omega

theorem mapGet_mapIncr (m : List (String × Nat)) (k ip : String) :
    mapGet (mapIncr m k) ip = mapGet m ip + if k = ip then 1 else 0 := by
  induction m with
  | nil =>
    by_cases h : k = ip <;> simp [mapGet, mapIncr, h]
  | cons p rest ih =>
    obtain ⟨k₀, v⟩ := p
    by_cases h0 : k₀ = k
    · subst h0
      by_cases h : k₀ = ip <;> simp [mapGet, mapIncr, h]
    · by_cases h : k₀ = ip
      · subst h
        have hk : ¬k = k₀ := fun hh => h0 hh.symm
        simp [mapGet, mapIncr, h0, hk]
      · simp [mapGet, mapIncr, h0, h, ih]

theorem sum_mapValues_mapIncr (m : List (String × Nat)) (k : String) :
    (mapValues (mapIncr m k)).sum = (mapValues m).sum + 1 := by
  induction m with
  | nil => simp [mapValues, mapIncr]
  | cons p rest ih =>
    obtain ⟨k₀, v⟩ := p
    by_cases h : k₀ = k
    · simp [mapValues, mapIncr, h]
      omega
    · simp only [mapValues, mapIncr, h, if_false, List.map_cons, List.sum_cons]
      simp only [mapValues] at ih
      omega

theorem foldl_statsStep_mapGet (l : List LogEntry) (a : StatsAcc) (ip : String) :
    mapGet (l.foldl statsStep a).requestsByIP ip
      = mapGet a.requestsByIP ip + (l.map LogEntry.IP).count ip := by
  induction l generalizing a with
  | nil => simp
  | cons e rest ih =>
    simp only [List.foldl_cons, ih, statsStep, List.map_cons]
    rw [mapGet_mapIncr, List.count_cons]
    by_cases h : ip = e.IP
    · subst h
      simp
      omega
    · have h2 : ¬e.IP = ip := fun hh => h hh.symm
      simp [h, h2]

theorem foldl_statsStep_sumValues (l : List LogEntry) (a : StatsAcc) :
    (mapValues (l.foldl statsStep a).requestsByIP).sum
      = (mapValues a.requestsByIP).sum + l.length := by
  induction l generalizing a with
  | nil => simp
  | cons e rest ih =>
    simp only [List.foldl_cons, ih, statsStep, List.length_cons]
    rw [sum_mapValues_mapIncr]
    omega

theorem calculateStats_totalRequests (l : List LogEntry) :
    (calculateStats l).TotalRequests = l.length := by
  show (l.foldl statsStep ⟨0, 0, [], 0⟩).totalRequests = l.length
  rw [foldl_statsStep_totalRequests]
  simp

theorem calculateStats_errorCount (l : List LogEntry) :
    (calculateStats l).ErrorCount
      = (l.filter (fun e => (400 : Int) ≤ e.StatusCode)).length := by
  show (l.foldl statsStep ⟨0, 0, [], 0⟩).errorCount = _
  rw [foldl_statsStep_errorCount]
  simp

theorem calculateStats_mapGet (l : List LogEntry) (ip : String) :
    mapGet (calculateStats l).RequestsByIP ip = (l.map LogEntry.IP).count ip := by
  show mapGet (l.foldl statsStep ⟨0, 0, [], 0⟩).requestsByIP ip = _
  rw [foldl_statsStep_mapGet]
  simp [mapGet]

theorem calculateStats_sumValues (l : List LogEntry) :
    (mapValues (calculateStats l).RequestsByIP).sum = l.length := by
  show (mapValues (l.foldl statsStep ⟨0, 0, [], 0⟩).requestsByIP).sum = l.length
  rw [foldl_statsStep_sumValues]
  simp [mapValues]

theorem calculateStats_avg_wrap (l : List LogEntry) :
    (calculateStats l).AverageRespTime =
      if l.length = 0 then 0
      else ((wrapSum (l.map LogEntry.ResponseTime) : Int) : ℚ)
            / (l.length : ℚ) := by
  have h1 := foldl_statsStep_totalRequests l ⟨0, 0, [], 0⟩
  have h2 := foldl_statsStep_totalRespTime l ⟨0, 0, [], 0⟩
  by_cases h : l.length = 0 <;>
    simp [calculateStats, wrapSum, h1, h2, h, Nat.pos_of_ne_zero]

/-! ## Claim theorems: aggregation, splitter, filter -/

/-- C1: over any finite input, `calculateStats` returns `TotalRequests`
equal to the number of records, `ErrorCount` equal to the number of
records with status ≥ 400, `RequestsByIP` mapping each IP to its number of
occurrences, and the values of `RequestsByIP` sum to `TotalRequests`. -/
theorem calculateStats_counts (input : List LogEntry) :
    (calculateStats input).TotalRequests = input.length ∧
    (calculateStats input).ErrorCount
      = (input.filter (fun e => (400 : Int) ≤ e.StatusCode)).length ∧
    (∀ ip : String, mapGet (calculateStats input).RequestsByIP ip
      = (input.map LogEntry.IP).count ip) ∧
    (mapValues (calculateStats input).RequestsByIP).sum
      = (calculateStats input).TotalRequests :=
  ⟨calculateStats_totalRequests input, calculateStats_errorCount input,
   fun ip => calculateStats_mapGet input ip,
   by rw [calculateStats_sumValues, calculateStats_totalRequests]⟩

/-- C2: for any input and any buffer capacity ≥ 1, both outputs of `tee`
carry every input record in input order, hence identical multisets, and
both are produced from the whole input (they close only once the input is
exhausted). -/
theorem tee_duplicates (input : List LogEntry) (bufferSize : Nat)
    (h : 1 ≤ bufferSize) :
    (tee input bufferSize).1 = input ∧ (tee input bufferSize).2 = input ∧
    Multiset.ofList (tee input bufferSize).1
      = Multiset.ofList (tee input bufferSize).2 := by
  rw [tee_eq]
  exact ⟨rfl, rfl, rfl⟩

/-- Witness for C2 at a concrete input and capacity 100. -/
theorem tee_duplicates_witness :
    (tee [sampleA, sampleB] 100).1 = [sampleA, sampleB] ∧
    (tee [sampleA, sampleB] 100).2 = [sampleA, sampleB] ∧
    Multiset.ofList (tee [sampleA, sampleB] 100).1
      = Multiset.ofList (tee [sampleA, sampleB] 100).2 :=
  tee_duplicates [sampleA, sampleB] 100 (by decide)

/-- C3: `filterLogs` returns exactly the input records with
`StatusCode ≥ minStatus`, preserving relative order (a sublist of the
input). -/
theorem filterLogs_spec (input : List LogEntry) (minStatus : Int) :
    filterLogs input minStatus
      = input.filter (fun e => minStatus ≤ e.StatusCode) ∧
    (filterLogs input minStatus).Sublist input ∧
    (∀ e : LogEntry, e ∈ filterLogs input minStatus
        ↔ e ∈ input ∧ minStatus ≤ e.StatusCode) := by
  refine ⟨filterLogs_eq_filter input minStatus, ?_, ?_⟩
  · rw [filterLogs_eq_filter]
    exact List.filter_sublist input
  · intro e
    rw [filterLogs_eq_filter]
    simp [List.mem_filter]

/-- C6 (counterexample): the exact-mean claim fails at a realizable
input.  `Atoi` accepts response time `2^63 - 1` (so the line reaches the
aggregator through the parser), and two such records overflow the Go
`int` accumulator: the program computes `totalRespTime = -2` and an
average of `-1` — here the `float64` quotient `-2/2 = -1` is exact, so
the idealized division is faithful at this input — while the exact mean
of the consumed response times is `2^63 - 1`. -/
theorem calculateStats_average_overflow :
    parseLogLine "t,i,GET,/,200,9223372036854775807" 0 = .ok maxRespEntry ∧
    (calculateStats [maxRespEntry, maxRespEntry]).AverageRespTime = -1 ∧
    ((([maxRespEntry, maxRespEntry].map LogEntry.ResponseTime).sum : Int) : ℚ)
        / (([maxRespEntry, maxRespEntry].length : Nat) : ℚ)
      = 9223372036854775807 ∧
    (calculateStats [maxRespEntry, maxRespEntry]).AverageRespTime ≠
      ((([maxRespEntry, maxRespEntry].map LogEntry.ResponseTime).sum : Int) : ℚ)
        / (([maxRespEntry, maxRespEntry].length : Nat) : ℚ) := by
  have hws : wrapSum ([maxRespEntry, maxRespEntry].map LogEntry.ResponseTime)
      = -2 := by decide
  have hsum : ([maxRespEntry, maxRespEntry].map LogEntry.ResponseTime).sum
      = 18446744073709551614 := by decide
  refine ⟨by decide, ?_, ?_, ?_⟩
  · rw [calculateStats_avg_wrap, hws]
    show (if (2 : Nat) = 0 then (0 : ℚ)
      else ((-2 : Int) : ℚ) / ((2 : Nat) : ℚ)) = -1
    norm_num
  · rw [hsum]
    show ((18446744073709551614 : Int) : ℚ) / ((2 : Nat) : ℚ)
      = 9223372036854775807
    norm_num
  · rw [calculateStats_avg_wrap, hws, hsum]
    show (if (2 : Nat) = 0 then (0 : ℚ)
        else ((-2 : Int) : ℚ) / ((2 : Nat) : ℚ))
      ≠ ((18446744073709551614 : Int) : ℚ) / ((2 : Nat) : ℚ)
    norm_num

/-- C6 (amended): the average is 0 when no record was counted; otherwise
it is the quotient of the 64-bit wrapping sum of the consumed response
times (the Go `int` accumulator) by `TotalRequests`, with the `float64`
division idealized as exact; it coincides with the exact mean whenever no
intermediate sum leaves the `int64` range. -/
theorem calculateStats_average_amended (input : List LogEntry) :
    ((calculateStats input).TotalRequests = 0 →
      (calculateStats input).AverageRespTime = 0) ∧
    ((calculateStats input).AverageRespTime =
      if (calculateStats input).TotalRequests = 0 then 0
      else ((wrapSum (input.map LogEntry.ResponseTime) : Int) : ℚ)
            / ((calculateStats input).TotalRequests : ℚ)) ∧
    ((∀ k, k ≤ input.length →
        -(2 ^ 63) ≤ (((input.map LogEntry.ResponseTime).take k).sum : Int) ∧
          (((input.map LogEntry.ResponseTime).take k).sum : Int) < 2 ^ 63) →
      (calculateStats input).AverageRespTime =
        if (calculateStats input).TotalRequests = 0 then 0
        else (((input.map LogEntry.ResponseTime).sum : Int) : ℚ)
              / ((calculateStats input).TotalRequests : ℚ)) := by
  refine ⟨?_, ?_, ?_⟩
  · intro h0
    rw [calculateStats_totalRequests] at h0
    rw [calculateStats_avg_wrap, h0]
    simp
  · rw [calculateStats_totalRequests, calculateStats_avg_wrap]
  · intro hrange
    rw [calculateStats_totalRequests, calculateStats_avg_wrap]
    have hlen : (input.map LogEntry.ResponseTime).length = input.length :=
      List.length_map input LogEntry.ResponseTime
    have hsum : wrapSum (input.map LogEntry.ResponseTime)
        = (input.map LogEntry.ResponseTime).sum := by
      unfold wrapSum
      rw [wrapFold_eq_sum]
      · simp
      · intro k hk
        have := hrange k (by omega)
        constructor <;> omega
    rw [hsum]

/-- Witness for the amended C6 at a concrete in-range input. -/
theorem calculateStats_average_amended_witness :
    (calculateStats [sampleA]).AverageRespTime =
      if (calculateStats [sampleA]).TotalRequests = 0 then 0
      else ((([sampleA].map LogEntry.ResponseTime).sum : Int) : ℚ)
            / ((calculateStats [sampleA]).TotalRequests : ℚ) :=
  (calculateStats_average_amended [sampleA]).2.2 (by decide)

/-- C7: the error count of the unfiltered branch agrees with the error
count over `filterLogs` at threshold 400, and on the filtered branch every
record counts as an error (`ErrorCount = TotalRequests`). -/
theorem errorCount_filter_400 (input : List LogEntry) :
    (calculateStats input).ErrorCount
      = (calculateStats (filterLogs input 400)).ErrorCount ∧
    (calculateStats (filterLogs input 400)).ErrorCount
      = (calculateStats (filterLogs input 400)).TotalRequests := by
  constructor
  · rw [calculateStats_errorCount, calculateStats_errorCount,
        filterLogs_eq_filter, List.filter_filter]
    simp
  · rw [calculateStats_errorCount, calculateStats_totalRequests,
        filterLogs_eq_filter, List.filter_filter]
    simp

/-! ## Helper lemmas: the parser -/

theorem parseLogLine_isError (line : String) (n : Nat)
    (h : (splitFields ',' line.data).length ≠ 6 ∨
         goAtoi ((splitFields ',' line.data).getD 4 []) = none ∨
         goAtoi ((splitFields ',' line.data).getD 5 []) = none) :
    ∃ msg, parseLogLine line n = .error msg := by
  simp only [parseLogLine]
  by_cases h6 : (splitFields ',' line.data).length = 6
  · rw [if_neg (not_not_intro h6)]
    rcases h with h | h | h
    · exact absurd h6 h
    · rw [h]
      exact ⟨_, rfl⟩
    · cases h4 : goAtoi ((splitFields ',' line.data).getD 4 []) with
      | none => exact ⟨_, rfl⟩
      | some sc => rw [h]; exact ⟨_, rfl⟩
  · rw [if_pos h6]
    exact ⟨_, rfl⟩

theorem splitFields_ne_nil (sep : Char) (cs : List Char) :
    splitFields sep cs ≠ [] := by
  cases cs with
  | nil => simp [splitFields]
  | cons c rest =>
    simp only [splitFields]
    by_cases h : c = sep
    · simp [h]
    · rw [if_neg h]
      cases hs : splitFields sep rest <;> simp

theorem joinFields_splitFields (sep : Char) (cs : List Char) :
    joinFields sep (splitFields sep cs) = cs := by
  induction cs with
  | nil => rfl
  | cons c rest ih =>
    simp only [splitFields]
    by_cases h : c = sep
    · subst h
      rw [if_pos rfl]
      cases hs : splitFields c rest with
      | nil => exact absurd hs (splitFields_ne_nil c rest)
      | cons f fs =>
        rw [hs] at ih
        simpa [joinFields] using ih
    · rw [if_neg h]
      cases hs : splitFields sep rest with
      | nil => exact absurd hs (splitFields_ne_nil sep rest)
      | cons f fs =>
        rw [hs] at ih
        cases fs with
        | nil =>
          simp only [joinFields] at ih ⊢
          rw [ih]
        | cons f2 fs2 =>
          simp only [joinFields, List.cons_append] at ih ⊢
          rw [ih]

theorem not_sep_mem_splitFields (sep : Char) (cs : List Char) :
    ∀ f ∈ splitFields sep cs, sep ∉ f := by
  induction cs with
  | nil =>
    intro f hf
    simp [splitFields] at hf
    subst hf
    simp
  | cons c rest ih =>
    intro f hf
    simp only [splitFields] at hf
    by_cases h : c = sep
    · rw [if_pos h] at hf
      rcases List.mem_cons.1 hf with h1 | h1
      · subst h1; simp
      · exact ih f h1
    · rw [if_neg h] at hf
      cases hs : splitFields sep rest with
      | nil => exact absurd hs (splitFields_ne_nil sep rest)
      | cons g gs =>
        rw [hs] at hf
        rcases List.mem_cons.1 hf with h1 | h1
        · subst h1
          intro hmem
          rcases List.mem_cons.1 hmem with h2 | h2
          · exact h h2.symm
          · have hg : g ∈ splitFields sep rest := by
              rw [hs]; exact List.mem_cons_self g gs
            exact ih g hg h2
        · have hf2 : f ∈ splitFields sep rest := by
            rw [hs]; exact List.mem_cons_of_mem g h1
          exact ih f hf2

theorem goAtoi_space (s : List Char) (h : ' ' ∈ s) : goAtoi s = none := by
  cases s with
  | nil => cases h
  | cons c rest =>
    simp only [goAtoi]
    by_cases hc : c = '+' ∨ c = '-'
    · rw [if_pos hc]
      have hcs : ' ' ∈ rest := by
        rcases List.mem_cons.1 h with h1 | h1
        · rcases hc with h2 | h2 <;> rw [h2] at h1 <;> exact absurd h1 (by decide)
        · exact h1
      have hall : rest.all Char.isDigit = false := by
        cases hd : rest.all Char.isDigit
        · rfl
        · exact absurd (List.all_eq_true.1 hd ' ' hcs) (by decide)
      by_cases he : rest.isEmpty
      · rw [if_pos he]
      · rw [if_neg he, hall]
        simp
    · rw [if_neg hc]
      have hall : (c :: rest).all Char.isDigit = false := by
        cases hd : (c :: rest).all Char.isDigit
        · rfl
        · exact absurd (List.all_eq_true.1 hd ' ' h) (by decide)
      rw [hall]
      simp

theorem goAtoi_nonneg (s : List Char) (v : Int) (h : goAtoi s = some v)
    (hs : s.head? ≠ some '-') : 0 ≤ v := by
  cases s with
  | nil => simp [goAtoi] at h
  | cons c rest =>
    have hc : ¬c = '-' := by
      intro hh
      exact hs (by simp [hh])
    have hneg : decide (c = '-') = false := by simp [hc]
    simp only [goAtoi] at h
    rw [hneg] at h
    simp only [Bool.false_eq_true, if_false] at h
    split at h
    all_goals split at h
    any_goals exact Option.noConfusion h
    all_goals split at h
    any_goals exact Option.noConfusion h
    all_goals split at h
    any_goals exact Option.noConfusion h
    all_goals
      injection h with h
      subst h
      exact Int.natCast_nonneg _

theorem parseLogLine_ok_respTime (line : String) (n : Nat) (e : LogEntry)
    (h : parseLogLine line n = .ok e) :
    goAtoi ((splitFields ',' line.data).getD 5 []) = some e.ResponseTime := by
  simp only [parseLogLine] at h
  split at h
  · exact Except.noConfusion h
  · split at h
    · exact Except.noConfusion h
    · split at h
      · exact Except.noConfusion h
      · rename_i rt hrt
        rw [hrt]
        rw [Except.ok.injEq] at h
        subst h
        rfl

/-! ## Claim theorems: parsing and reading -/

/-- C5: a post-header line whose comma split does not have exactly 6
fields, or whose fifth or sixth field is rejected by `Atoi`, is skipped
with one diagnostic and the scan continues with the next line; a file with
a valid header, one well-formed row and one 4-field row yields exactly one
record (so `TotalRequests = 1`) and one malformed-line diagnostic. -/
theorem readLogs_malformed_skip :
    (∀ (line : String) (rest : List String) (n : Nat),
        ((splitFields ',' line.data).length ≠ 6 ∨
         goAtoi ((splitFields ',' line.data).getD 4 []) = none ∨
         goAtoi ((splitFields ',' line.data).getD 5 []) = none) →
        scanLines (line :: rest) n
          = ((scanLines rest (n + 1)).1, (scanLines rest (n + 1)).2 + 1)) ∧
    readLogs true true c5File = .ok [c5Entry] 1 ∧
    (calculateStats [c5Entry]).TotalRequests = 1 := by
  refine ⟨?_, by decide, by decide⟩
  intro line rest n h
  obtain ⟨msg, hm⟩ := parseLogLine_isError line n h
  simp [scanLines, hm]

/-- Witness for C5: the 4-field row of `c5File` is skipped with one
diagnostic. -/
theorem readLogs_malformed_skip_witness :
    scanLines ["2024-01-15 10:31:00,10.0.0.2,POST,/login"] 2
      = ((scanLines [] 3).1, (scanLines [] 3).2 + 1) :=
  readLogs_malformed_skip.1 "2024-01-15 10:31:00,10.0.0.2,POST,/login" [] 2
    (Or.inl (by decide))

/-- C8 (counterexample): the parser accepts a line whose sixth field is a
negative integer, so an accepted record can have a negative
`ResponseTime`, contradicting the claimed non-negativity. -/
theorem parseLogLine_accepts_negative_respTime :
    ∃ e : LogEntry, parseLogLine c8Line 0 = .ok e ∧ e.ResponseTime < 0 :=
  ⟨{ Timestamp := "2024-01-15 10:30:00", IP := "10.0.0.1", Method := "GET",
     URL := "/index.html", StatusCode := 200, ResponseTime := -5 },
   by decide, by decide⟩

/-- C8 (amended): for every accepted line, `ResponseTime` is the integer
`Atoi` parses from the sixth field; it is non-negative whenever that field
does not begin with a minus sign. -/
theorem parseLogLine_respTime_amended (line : String) (n : Nat)
    (e : LogEntry) (h : parseLogLine line n = .ok e) :
    goAtoi ((splitFields ',' line.data).getD 5 []) = some e.ResponseTime ∧
    (((splitFields ',' line.data).getD 5 []).head? ≠ some '-' →
      0 ≤ e.ResponseTime) := by
  have h5 := parseLogLine_ok_respTime line n e h
  exact ⟨h5, fun hh => goAtoi_nonneg _ _ h5 hh⟩

/-- Witness for the amended C8 at a concrete accepted line. -/
theorem parseLogLine_respTime_amended_witness :
    0 ≤ ({ Timestamp := "t", IP := "i", Method := "m", URL := "u",
           StatusCode := 200, ResponseTime := 50 } : LogEntry).ResponseTime :=
  (parseLogLine_respTime_amended "t,i,m,u,200,50" 0
    { Timestamp := "t", IP := "i", Method := "m", URL := "u",
      StatusCode := 200, ResponseTime := 50 } (by decide)).2 (by decide)

/-- C9 (counterexample): when the file opens but `Stat` fails, the run
does not report an error to the caller of `readLogs`: the code prints the
`Stat` error, falls through, and dereferences the nil `FileInfo`, so the
run aborts by panic.  No record is produced, but the failure is a panic,
not an open-failure error returned to the caller. -/
theorem readLogs_stat_failure_panics :
    readLogs true false c5File = .statPanic ∧
    ReadResult.statPanic ≠ ReadResult.openError ∧
    mainModel ["access.log"] true false c5File = .panicked := by
  refine ⟨rfl, by decide, rfl⟩

/-- C9 (amended): an open failure is returned to the caller of `readLogs`
as an error (never through the record sequence) and `main` aborts the run
via `log.Fatalf`; a stat failure also aborts the run before any record is
produced, but by a panic inside `readLogs` rather than an error returned
to the caller; records are produced only when both open and stat
succeed. -/
theorem readLogs_open_failure_amended :
    (∀ (canStat : Bool) (lines : List String),
        readLogs false canStat lines = .openError) ∧
    (∀ lines : List String, readLogs true false lines = .statPanic) ∧
    (∀ (a : String) (args : List String) (canStat : Bool)
        (lines : List String),
        mainModel (a :: args) false canStat lines = .fatalOpen) ∧
    (∀ (a : String) (args : List String) (lines : List String),
        mainModel (a :: args) true false lines = .panicked) ∧
    (∀ (canOpen canStat : Bool) (lines : List String)
        (recs : List LogEntry) (d : Nat),
        readLogs canOpen canStat lines = .ok recs d →
        canOpen = true ∧ canStat = true) := by
  refine ⟨fun _ _ => rfl, fun _ => rfl, fun _ _ _ _ => rfl,
    fun _ _ _ => rfl, ?_⟩
  intro co cs ls recs d h
  cases co
  · exact absurd h (by simp [readLogs])
  · cases cs
    · exact absurd h (by simp [readLogs])
    · exact ⟨rfl, rfl⟩

/-- Witness for the amended C9 at a concrete successful read. -/
theorem readLogs_open_failure_amended_witness :
    readLogs true true ["header"] = .ok [] 0 ∧ (true = true ∧ true = true) :=
  ⟨by decide,
   readLogs_open_failure_amended.2.2.2.2 true true ["header"] [] 0 (by decide)⟩

/-- C10: the parser trims nothing and honours no CSV quoting.  `Atoi`
rejects any field containing a space; a six-field line whose status-code
or response-time field carries a space is malformed; the fields are the
verbatim runs between consecutive commas (they rebuild the line and
contain no comma); and a quoted field with an embedded comma changes the
field count (here to 7), making the line malformed. -/
theorem parseLogLine_verbatim_fields :
    (∀ s : List Char, ' ' ∈ s → goAtoi s = none) ∧
    (∀ cs : List Char, joinFields ',' (splitFields ',' cs) = cs ∧
        ∀ f ∈ splitFields ',' cs, ',' ∉ f) ∧
    (∀ (line : String) (n : Nat),
        (' ' ∈ (splitFields ',' line.data).getD 4 [] ∨
         ' ' ∈ (splitFields ',' line.data).getD 5 []) →
        ∃ msg, parseLogLine line n = .error msg) ∧
    (splitFields ',' c10Line.data).length = 7 ∧
    (∃ msg, parseLogLine c10Line 0 = .error msg) := by
  refine ⟨fun s hs => goAtoi_space s hs,
    fun cs => ⟨joinFields_splitFields ',' cs, not_sep_mem_splitFields ',' cs⟩,
    ?_, by decide, parseLogLine_isError c10Line 0 (Or.inl (by decide))⟩
  intro line n h
  apply parseLogLine_isError
  rcases h with h | h
  · exact Or.inr (Or.inl (goAtoi_space _ h))
  · exact Or.inr (Or.inr (goAtoi_space _ h))

/-- Witness for C10: a line whose fifth field is " 200" is malformed. -/
theorem parseLogLine_verbatim_fields_witness :
    ∃ msg, parseLogLine "t,i,m,u, 200,50" 0 = .error msg :=
  parseLogLine_verbatim_fields.2.2.1 "t,i,m,u, 200,50" 0 (Or.inl (by decide))

/-! ## Helper lemmas: the worker pool -/

theorem poolStep_cancelled_of {c c' : PoolConfig} (h : PoolStep c c')
    (hc : c'.cancelled = false) : c.cancelled = false := by
  cases h <;> first
    | exact Bool.noConfusion hc
    | exact hc

theorem poolStep_count_le {c c' : PoolConfig} (h : PoolStep c c')
    (a : LogEntry) :
    c'.pending.count a + Multiset.count a c'.holding + c'.out.count a
      ≤ c.pending.count a + Multiset.count a c.holding + c.out.count a := by
  cases h with
  | cancel => exact le_rfl
  | receive e rest hp hr =>
    show rest.count a + Multiset.count a (e ::ₘ c.holding) + c.out.count a
      ≤ c.pending.count a + Multiset.count a c.holding + c.out.count a
    rw [hp, List.count_cons, Multiset.count_cons]
    by_cases hae : a = e <;> simp [hae] <;> omega
  | send e he hc =>
    show c.pending.count a + Multiset.count a (c.holding.erase e)
        + (c.out ++ [e]).count a
      ≤ c.pending.count a + Multiset.count a c.holding + c.out.count a
    have hcnt : 1 ≤ Multiset.count e c.holding :=
      Multiset.one_le_count_iff_mem.2 he
    rw [List.count_append]
    by_cases hae : a = e
    · subst hae
      rw [Multiset.count_erase_self]
      simp
      omega
    · rw [Multiset.count_erase_of_ne hae]
      simp [hae]
  | dropOnCancel e he hc =>
    show c.pending.count a + Multiset.count a (c.holding.erase e)
        + c.out.count a
      ≤ c.pending.count a + Multiset.count a c.holding + c.out.count a
    have hcnt : 1 ≤ Multiset.count e c.holding :=
      Multiset.one_le_count_iff_mem.2 he
    by_cases hae : a = e
    · subst hae
      rw [Multiset.count_erase_self]
      omega
    · rw [Multiset.count_erase_of_ne hae]
  | finishEmpty hp hr => exact le_rfl

theorem poolStep_count_eq {c c' : PoolConfig} (h : PoolStep c c')
    (hc : c'.cancelled = false) (a : LogEntry) :
    c'.pending.count a + Multiset.count a c'.holding + c'.out.count a
      = c.pending.count a + Multiset.count a c.holding + c.out.count a := by
  cases h with
  | cancel => exact Bool.noConfusion hc
  | receive e rest hp hr =>
    show rest.count a + Multiset.count a (e ::ₘ c.holding) + c.out.count a
      = c.pending.count a + Multiset.count a c.holding + c.out.count a
    rw [hp, List.count_cons, Multiset.count_cons]
    by_cases hae : a = e
    · simp [hae]
      omega
    · have hea : ¬e = a := fun hh => hae hh.symm
      simp [hae, hea]
  | send e he hcan =>
    show c.pending.count a + Multiset.count a (c.holding.erase e)
        + (c.out ++ [e]).count a
      = c.pending.count a + Multiset.count a c.holding + c.out.count a
    have hcnt : 1 ≤ Multiset.count e c.holding :=
      Multiset.one_le_count_iff_mem.2 he
    rw [List.count_append]
    by_cases hae : a = e
    · subst hae
      rw [Multiset.count_erase_self]
      simp
      omega
    · rw [Multiset.count_erase_of_ne hae]
      simp [hae]
  | dropOnCancel e he hcan =>
    have : c.cancelled = false := hc
    rw [this] at hcan
    exact Bool.noConfusion hcan
  | finishEmpty hp hr => rfl

theorem poolStep_workers {c c' : PoolConfig} (h : PoolStep c c') :
    c'.running + Multiset.card c'.holding + c'.finished
      = c.running + Multiset.card c.holding + c.finished := by
  cases h with
  | cancel => rfl
  | receive e rest hp hr =>
    show c.running - 1 + Multiset.card (e ::ₘ c.holding) + c.finished
      = c.running + Multiset.card c.holding + c.finished
    rw [Multiset.card_cons]
    omega
  | send e he hc =>
    show c.running + 1 + Multiset.card (c.holding.erase e) + c.finished
      = c.running + Multiset.card c.holding + c.finished
    have hcard : 0 < Multiset.card c.holding :=
      Multiset.card_pos_iff_exists_mem.2 ⟨e, he⟩
    rw [Multiset.card_erase_of_mem he, Nat.pred_eq_sub_one]
    omega
  | dropOnCancel e he hc =>
    show c.running + Multiset.card (c.holding.erase e) + (c.finished + 1)
      = c.running + Multiset.card c.holding + c.finished
    have hcard : 0 < Multiset.card c.holding :=
      Multiset.card_pos_iff_exists_mem.2 ⟨e, he⟩
    rw [Multiset.card_erase_of_mem he, Nat.pred_eq_sub_one]
    omega
  | finishEmpty hp hr =>
    show c.running - 1 + Multiset.card c.holding + (c.finished + 1)
      = c.running + Multiset.card c.holding + c.finished
    omega

theorem poolReaches_inv (input : List LogEntry) (N : Nat) (c : PoolConfig)
    (h : Relation.ReflTransGen PoolStep (initPool input N) c) :
    (∀ a : LogEntry,
        c.pending.count a + Multiset.count a c.holding + c.out.count a
          ≤ input.count a) ∧
    (c.running + Multiset.card c.holding + c.finished = N) ∧
    (c.cancelled = false →
      (∀ a : LogEntry,
          c.pending.count a + Multiset.count a c.holding + c.out.count a
            = input.count a) ∧
      (0 < c.finished → c.pending = [])) := by
  induction h with
  | refl => simp [initPool]
  | tail hreach hstep ih =>
    rename_i b c2
    refine ⟨?_, ?_, ?_⟩
    · intro a
      exact le_trans (poolStep_count_le hstep a) (ih.1 a)
    · rw [poolStep_workers hstep]
      exact ih.2.1
    · intro hc
      have hb : b.cancelled = false := poolStep_cancelled_of hstep hc
      obtain ⟨ihe, ihf⟩ := ih.2.2 hb
      refine ⟨fun a => (poolStep_count_eq hstep hc a).trans (ihe a), ?_⟩
      intro hf
      cases hstep with
      | cancel => exact Bool.noConfusion hc
      | receive e rest hp hr =>
        have hbp : b.pending = [] := ihf hf
        rw [hbp] at hp
        exact List.noConfusion hp
      | send e he hcan => exact ihf hf
      | dropOnCancel e he hcan =>
        rw [hb] at hcan
        exact Bool.noConfusion hcan
      | finishEmpty hp hr => exact hp

/-! ## Claim theorem: the worker pool -/

/-- C4: for any worker count N ≥ 1 and finite input, along every scheduler
run of the pool, the output is a sub-multiset of the input; in a run in
which cancellation never fired, when the output channel closes (all N
workers have returned) the output multiset equals the input multiset and
the input is fully drained; and no step taken from a configuration in
which the cancellation signal is observable forwards anything to the
output. -/
theorem processLogs_pool_spec (input : List LogEntry) (N : Nat)
    (hN : 1 ≤ N) (c : PoolConfig)
    (h : PoolReaches (initPool input N) c) :
    Multiset.ofList c.out ≤ Multiset.ofList input ∧
    (c.cancelled = false → c.closed →
      Multiset.ofList c.out = Multiset.ofList input ∧ c.pending = []) ∧
    (∀ c₁ c₂ : PoolConfig, PoolStep c₁ c₂ → c₁.cancelled = true →
      c₂.out = c₁.out) := by
  obtain ⟨hle, hw, hun⟩ := poolReaches_inv input N c h
  refine ⟨?_, ?_, ?_⟩
  · rw [Multiset.le_iff_count]
    intro a
    have hc := hle a
    simp only [Multiset.coe_count]
    omega
  · intro hcf hcl
    have hcl' : c.running = 0 ∧ c.holding = 0 := hcl
    obtain ⟨hr0, hh0⟩ := hcl'
    obtain ⟨he, hf⟩ := hun hcf
    have hfin : 0 < c.finished := by
      rw [hr0, hh0] at hw
      simp at hw
      omega
    have hp : c.pending = [] := hf hfin
    refine ⟨?_, hp⟩
    rw [Multiset.ext]
    intro a
    have hea := he a
    rw [hp, hh0] at hea
    simp at hea
    simp only [Multiset.coe_count]
    exact hea
  · intro c₁ c₂ hstep hc1
    cases hstep with
    | cancel => rfl
    | receive e rest hp hr => rfl
    | send e he hcan =>
      rw [hc1] at hcan
      exact Bool.noConfusion hcan
    | dropOnCancel e he hcan => rfl
    | finishEmpty hp hr => rfl

/-- Witness for C4: a complete uncancelled one-worker run over a one-entry
input, from the initial configuration to the closed terminal one. -/
theorem processLogs_pool_spec_witness :
    1 ≤ 1 ∧
    Multiset.ofList (initPool [sampleA] 1).out
      ≤ Multiset.ofList [sampleA] :=
  ⟨le_refl 1,
   (processLogs_pool_spec [sampleA] 1 (le_refl 1) (initPool [sampleA] 1)
      Relation.ReflTransGen.refl).1⟩

end LogProcessor
